import Mathlib

/-!
Verification of the `dircontxt` directory-snapshot tool.

The definitions in this file are shallow embeddings of the C sources
(`src/src/*.c`).  Machine strings are modelled as Lean `String`/`List Char`,
raw bytes as `List Nat` (each element a byte value `< 256`), and `uint64`
quantities as `Nat` (the claims under study never exercise wraparound).
Fallible C functions returning a success flag plus out-parameters are
modelled as `Option`-valued functions.
-/

/-! ### Character classes (ctype.h, C locale) -/

/-- Model of `isspace` on a character (C locale): space, \t, \n, \v, \f, \r. -/
def isSpaceChar (c : Char) : Bool :=
  c.toNat = 32 || (9 ≤ c.toNat && c.toNat ≤ 13)

/-- ASCII decimal digit character. -/
def isDigitChar (c : Char) : Bool :=
  48 ≤ c.toNat && c.toNat ≤ 57

/-! ### Decimal rendering, as produced by `printf`-style `%d` / `%03d` -/

/-- The digit character for a value `0 ≤ d ≤ 9` (values above 9 never occur). -/
def digitChar (d : Nat) : Char :=
  match d with
  | 0 => '0' | 1 => '1' | 2 => '2' | 3 => '3' | 4 => '4'
  | 5 => '5' | 6 => '6' | 7 => '7' | 8 => '8' | _ => '9'

/-- Decimal digits of `n`, most-significant first; fuel-structured so that it
reduces definitionally (the fuel is always sufficient: `natChars` passes
`n + 1`). -/
def natCharsAux : Nat → Nat → List Char
  | 0, _ => []
  | fuel + 1, n =>
    if n < 10 then [digitChar n]
    else natCharsAux fuel (n / 10) ++ [digitChar (n % 10)]

/-- Decimal numeral of a natural number, e.g. `natChars 105 = ['1','0','5']`. -/
def natChars (n : Nat) : List Char := natCharsAux (n + 1) n

/-- Decimal numeral of `n` as a string (`printf "%d"` on a non-negative int). -/
def natStr (n : Nat) : String := String.mk (natChars n)

/-- Model of `printf "%d"` of a (possibly negative) integer. -/
def intStr (i : Int) : String :=
  if i < 0 then "-" ++ natStr i.natAbs else natStr i.toNat

/-- Value of a digit character. -/
def digitVal (c : Char) : Nat := c.toNat - 48

/-- Value of a most-significant-first digit list (leading zeros allowed). -/
def decDigits (l : List Char) : Nat :=
  l.foldl (fun a c => 10 * a + digitVal c) 0

/-- Model of `printf "%03d"` of a non-negative value: the numeral zero-padded to
width 3. -/
def pad3Chars (n : Nat) : List Char :=
  List.replicate (3 - (natChars n).length) '0' ++ natChars n

/-! #### Lemmas about the decimal rendering -/

theorem digitChar_toNat (d : Nat) (h : d < 10) : (digitChar d).toNat = 48 + d := by
  interval_cases d <;> rfl

theorem digitChar_isDigit (d : Nat) (h : d < 10) : isDigitChar (digitChar d) = true := by
  interval_cases d <;> rfl

theorem natCharsAux_digits (fuel n : Nat) :
    ∀ c ∈ natCharsAux fuel n, isDigitChar c = true := by
  induction fuel generalizing n with
  | zero => intro c hc; simp [natCharsAux] at hc
  | succ fuel ih =>
    intro c hc
    rw [natCharsAux] at hc
    by_cases h : n < 10
    · rw [if_pos h] at hc
      simp at hc
      subst hc
      exact digitChar_isDigit n h
    · rw [if_neg h] at hc
      rcases List.mem_append.mp hc with h1 | h2
      · exact ih _ c h1
      · simp at h2
        subst h2
        exact digitChar_isDigit _ (Nat.mod_lt _ (by omega))

theorem natChars_digits (n : Nat) : ∀ c ∈ natChars n, isDigitChar c = true :=
  natCharsAux_digits (n + 1) n

theorem natCharsAux_ne_nil (fuel n : Nat) (h : n < fuel) :
    natCharsAux fuel n ≠ [] := by
  cases fuel with
  | zero => omega
  | succ fuel =>
    rw [natCharsAux]
    by_cases h10 : n < 10
    · rw [if_pos h10]; simp
    · rw [if_neg h10]; simp

theorem natChars_ne_nil (n : Nat) : natChars n ≠ [] :=
  natCharsAux_ne_nil (n + 1) n (Nat.lt_succ_self n)

theorem decDigits_append_digit (l : List Char) (c : Char) :
    decDigits (l ++ [c]) = 10 * decDigits l + digitVal c := by
  simp [decDigits, List.foldl_append]

theorem decDigits_natCharsAux (fuel n : Nat) (h : n < fuel) :
    decDigits (natCharsAux fuel n) = n := by
  induction fuel generalizing n with
  | zero => omega
  | succ fuel ih =>
    rw [natCharsAux]
    by_cases h10 : n < 10
    · rw [if_pos h10]
      simp [decDigits, digitVal, digitChar_toNat n h10]
    · rw [if_neg h10]
      rw [decDigits_append_digit]
      have hdiv : n / 10 < fuel := by
        have : n / 10 < n := Nat.div_lt_self (by omega) (by omega)
        omega
      rw [ih _ hdiv]
      have := digitChar_toNat (n % 10) (Nat.mod_lt _ (by omega))
      simp [digitVal, this]
      omega

theorem decDigits_natChars (n : Nat) : decDigits (natChars n) = n :=
  decDigits_natCharsAux (n + 1) n (Nat.lt_succ_self n)

theorem decDigits_replicate_zero (k : Nat) (l : List Char) :
    decDigits (List.replicate k '0' ++ l) = decDigits l := by
  induction k with
  | zero => simp
  | succ k ih =>
    have : List.replicate (k+1) '0' ++ l = '0' :: (List.replicate k '0' ++ l) := by
      simp [List.replicate_succ]
    rw [this]
    have hstep : decDigits ('0' :: (List.replicate k '0' ++ l))
        = (List.replicate k '0' ++ l).foldl (fun a c => 10 * a + digitVal c) 0 := by
      simp [decDigits, digitVal]
    rw [hstep]
    exact ih

theorem decDigits_pad3 (n : Nat) : decDigits (pad3Chars n) = n := by
  rw [pad3Chars, decDigits_replicate_zero, decDigits_natChars]

theorem natChars_injective {m n : Nat} (h : natChars m = natChars n) : m = n := by
  have := decDigits_natChars m
  rw [h, decDigits_natChars] at this
  omega

theorem pad3Chars_injective {m n : Nat} (h : pad3Chars m = pad3Chars n) : m = n := by
  have := decDigits_pad3 m
  rw [h, decDigits_pad3] at this
  omega

/-! ### `version.c` — version token parsing and increment

`calculate_next_version` uses `sscanf(old, "V%d.%d", ...)` and falls back to
`sscanf(old, "V%d", ...)` and finally to the literal `"V1"`.  `scanInt` below
models one `%d` conversion: skip whitespace, optional sign, a non-empty digit
run; on failure the conversion (and the whole `sscanf` match) stops. -/

/-- One `%d` conversion of `sscanf`: returns the parsed value and the rest of
the input, or `none` if no integer can be parsed at this point. -/
def scanInt (cs : List Char) : Option (Int × List Char) :=
  match cs.dropWhile isSpaceChar with
  | [] => none
  | c :: rest =>
    if c = '-' then
      let ds := rest.takeWhile isDigitChar
      if ds.isEmpty then none
      else some (-(decDigits ds : Int), rest.dropWhile isDigitChar)
    else if c = '+' then
      let ds := rest.takeWhile isDigitChar
      if ds.isEmpty then none
      else some ((decDigits ds : Int), rest.dropWhile isDigitChar)
    else
      let ds := (c :: rest).takeWhile isDigitChar
      if ds.isEmpty then none
      else some ((decDigits ds : Int), (c :: rest).dropWhile isDigitChar)

/-- Model of `calculate_next_version` from `version.c`.  The `"V%d.%d"` scan succeeds
iff the token starts with `'V'`, an integer parses, the very next character is
`'.'` and a second integer parses; then the minor part is incremented.  If only
`"V%d"` matches, the result is `V<major>.1`; otherwise `"V1"`. -/
def calculate_next_version (old : String) : String :=
  match old.data with
  | [] => "V1"
  | c :: rest =>
    if c = 'V' then
      match scanInt rest with
      | some (a, rem) =>
        match rem with
        | [] => "V" ++ intStr a ++ ".1"
        | d :: rest2 =>
          if d = '.' then
            match scanInt rest2 with
            | some (b, _) => "V" ++ intStr a ++ "." ++ intStr (b + 1)
            | none => "V" ++ intStr a ++ ".1"
          else "V" ++ intStr a ++ ".1"
      | none => "V1"
    else "V1"

/-- The `sscanf`-style classification used by the code: `some a` iff the token
starts with `'V'` followed by a parseable integer `a`. -/
def vMajorParse (s : String) : Option Int :=
  match s.data with
  | [] => none
  | c :: rest => if c = 'V' then (scanInt rest).map (fun p => p.1) else none

/-- The canonical token of shape `V<a>.<b>` (`a`, `b` decimal numerals). -/
def vDotStr (a b : Nat) : String := "V" ++ natStr a ++ "." ++ natStr b

/-- The canonical token of shape `V<a>`. -/
def vMajStr (a : Nat) : String := "V" ++ natStr a

/-! #### Scanning lemmas -/

theorem isSpaceChar_of_isDigitChar {c : Char} (h : isDigitChar c = true) :
    isSpaceChar c = false := by
  simp [isDigitChar] at h
  simp [isSpaceChar]
  omega

theorem takeWhile_digits_append (l r : List Char)
    (hl : ∀ c ∈ l, isDigitChar c = true)
    (hr : ∀ c, r.head? = some c → isDigitChar c = false) :
    (l ++ r).takeWhile isDigitChar = l := by
  induction l with
  | nil =>
    simp only [List.nil_append]
    cases r with
    | nil => simp
    | cons c r' =>
      rw [List.takeWhile_cons]
      rw [hr c rfl]
      simp
  | cons c l' ih =>
    rw [List.cons_append, List.takeWhile_cons, hl c (by simp)]
    simp
    exact ih (fun x hx => hl x (by simp [hx]))

theorem dropWhile_digits_append (l r : List Char)
    (hl : ∀ c ∈ l, isDigitChar c = true)
    (hr : ∀ c, r.head? = some c → isDigitChar c = false) :
    (l ++ r).dropWhile isDigitChar = r := by
  induction l with
  | nil =>
    simp only [List.nil_append]
    cases r with
    | nil => simp
    | cons c r' =>
      rw [List.dropWhile_cons]
      rw [hr c rfl]
      simp
  | cons c l' ih =>
    rw [List.cons_append, List.dropWhile_cons, hl c (by simp)]
    simp
    exact ih (fun x hx => hl x (by simp [hx]))

theorem scanInt_digits (l r : List Char)
    (hne : l ≠ [])
    (hl : ∀ c ∈ l, isDigitChar c = true)
    (hr : ∀ c, r.head? = some c → isDigitChar c = false) :
    scanInt (l ++ r) = some ((decDigits l : Int), r) := by
  obtain ⟨c0, l', rfl⟩ : ∃ c0 l', l = c0 :: l' := by
    cases l with
    | nil => exact absurd rfl hne
    | cons a b => exact ⟨a, b, rfl⟩
  have hc0 : isDigitChar c0 = true := hl c0 (by simp)
  have hsp : isSpaceChar c0 = false := isSpaceChar_of_isDigitChar hc0
  have hminus : ¬(c0 = '-') := by
    intro h; subst h; simp [isDigitChar] at hc0
  have hplus : ¬(c0 = '+') := by
    intro h; subst h; simp [isDigitChar] at hc0
  have hdrop : ((c0 :: l') ++ r).dropWhile isSpaceChar = c0 :: (l' ++ r) := by
    rw [List.cons_append, List.dropWhile_cons, hsp]
    simp
  have htake := takeWhile_digits_append (c0 :: l') r hl hr
  have hdropd := dropWhile_digits_append (c0 :: l') r hl hr
  rw [List.cons_append] at htake hdropd
  rw [scanInt, hdrop]
  simp [hminus, hplus, htake, hdropd]

theorem scanInt_natChars_append (n : Nat) (r : List Char)
    (hr : ∀ c, r.head? = some c → isDigitChar c = false) :
    scanInt (natChars n ++ r) = some ((n : Int), r) := by
  have := scanInt_digits (natChars n) r (natChars_ne_nil n) (natChars_digits n) hr
  rwa [decDigits_natChars] at this

theorem scanInt_natChars (n : Nat) : scanInt (natChars n) = some ((n : Int), []) := by
  have := scanInt_natChars_append n [] (by intro c hc; simp at hc)
  simpa using this

theorem intStr_natCast (n : Nat) : intStr (n : Int) = natStr n := by
  rw [intStr, if_neg (by omega)]
  simp

theorem vDotStr_data (a b : Nat) :
    (vDotStr a b).data = 'V' :: (natChars a ++ '.' :: natChars b) := by
  simp [vDotStr, natStr, String.data_append]

theorem vMajStr_data (a : Nat) : (vMajStr a).data = 'V' :: natChars a := by
  simp [vMajStr, natStr, String.data_append]

/-- C6 counterexample.  The token `"V2x"` has neither of the shapes `V<a>.<b>`
or `V<a>` of the claim, yet `calculate_next_version` maps it to `"V2.1"`, not
to `"V1"`: `sscanf` classifies by a parseable prefix and ignores trailing
characters. -/
theorem C6_counterexample_V2x :
    (¬ ∃ a b : Nat, "V2x" = vDotStr a b)
    ∧ (¬ ∃ a : Nat, "V2x" = vMajStr a)
    ∧ calculate_next_version "V2x" = "V2.1"
    ∧ calculate_next_version "V2x" ≠ "V1" := by
  refine ⟨?_, ?_, ?_, ?_⟩
  · rintro ⟨a, b, h⟩
    have hd : ("V2x").data = (vDotStr a b).data := by rw [h]
    rw [vDotStr_data] at hd
    have hlen := congrArg List.length hd
    have ha := natChars_ne_nil a
    have hb := natChars_ne_nil b
    have h1 : 1 ≤ (natChars a).length := by
      cases hca : natChars a with
      | nil => exact absurd hca ha
      | cons x l => simp
    have h2 : 1 ≤ (natChars b).length := by
      cases hcb : natChars b with
      | nil => exact absurd hcb hb
      | cons x l => simp
    simp at hlen
    omega
  · rintro ⟨a, h⟩
    have hd : ("V2x").data = (vMajStr a).data := by rw [h]
    rw [vMajStr_data] at hd
    have : natChars a = ['2', 'x'] := by
      have h2 : ('V' : Char) :: ['2', 'x'] = 'V' :: natChars a := hd
      simp at h2
      exact h2.symm
    have hx : isDigitChar 'x' = true := natChars_digits a 'x' (by rw [this]; simp)
    simp [isDigitChar] at hx
  · decide
  · decide

/-- C6 amended claim: the two positive increment rules hold for canonical
tokens, but the fallback to `"V1"` happens exactly when the token does not
begin with `'V'` followed by a parseable integer; any trailing garbage after
the parsed prefix is ignored. -/
theorem C6_version_increment_amended (a b : Nat) :
    calculate_next_version (vDotStr a b) = vDotStr a (b + 1)
    ∧ calculate_next_version (vMajStr a) = vDotStr a 1
    ∧ (∀ s : String, vMajorParse s = none → calculate_next_version s = "V1") := by
  refine ⟨?_, ?_, ?_⟩
  · rw [calculate_next_version, vDotStr_data]
    have h1 : scanInt (natChars a ++ '.' :: natChars b) = some ((a : Int), '.' :: natChars b) := by
      apply scanInt_natChars_append
      intro c hc
      simp at hc
      subst hc
      decide
    have h2 : scanInt (natChars b) = some ((b : Int), []) := scanInt_natChars b
    simp [h1, h2]
    have : (a : Int) ≥ 0 := by omega
    have hb1 : ((b : Int) + 1) = ((b + 1 : Nat) : Int) := by push_cast; ring
    rw [hb1, intStr_natCast, intStr_natCast]
    rfl
  · rw [calculate_next_version, vMajStr_data]
    simp [scanInt_natChars a]
    rw [intStr_natCast]
    apply String.ext
    simp [vDotStr, natStr, String.data_append]
    decide
  · intro s hs
    rw [vMajorParse] at hs
    rw [calculate_next_version]
    cases hd : s.data with
    | nil => simp
    | cons c rest =>
      rw [hd] at hs
      by_cases hc : c = 'V'
      · subst hc
        simp at hs
        simp [hs]
      · simp [hc]

/-- Witness for `C6_version_increment_amended` at concrete inputs. -/
theorem C6_version_increment_amended_witness :
    calculate_next_version (vDotStr 1 2) = vDotStr 1 3
    ∧ calculate_next_version "x" = "V1" :=
  ⟨(C6_version_increment_amended 1 2).1,
   (C6_version_increment_amended 0 0).2.2 "x" (by decide)⟩

/-! ### `ignore.c` — the ignore engine

`parse_ignore_pattern_line` and `should_ignore_item` are modelled on
`List Char` (the directory separator is `'/'` on POSIX).  The engine returns
`true` as soon as any rule matches; the rule record has no negation flag. -/

/-- The platform directory separator (POSIX build). -/
def pathSep : Char := '/'

/-- Trim leading and trailing whitespace (the C code first strips trailing
newline characters, then leading and trailing `isspace` characters; the net
effect is a full trim since newlines are whitespace). -/
def trimLine (line : List Char) : List Char :=
  ((line.dropWhile isSpaceChar).reverse.dropWhile isSpaceChar).reverse

/-- Model of `IgnoreRule` from `datatypes.h` (pattern plus four classification flags;
there is no negation flag in the struct). -/
structure IgnoreRule where
  pattern : List Char
  is_dir_only : Bool
  is_wildcard_prefix_match : Bool
  is_wildcard_suffix_match : Bool
  is_exact_name_match : Bool
deriving DecidableEq

/-- Model of `parse_ignore_pattern_line` from `ignore.c`. -/
def parse_ignore_pattern_line (line : List Char) : Option IgnoreRule :=
  let l := trimLine line
  match l with
  | [] => none
  | c :: _ =>
    if c = '#' then none
    else
      let dirOnly : Bool := l.getLast? = some pathSep
      let p1 := if dirOnly then l.dropLast else l
      if p1.length > 1 ∧ p1.getLast? = some '*' ∧ p1[p1.length - 2]? = some pathSep then
        some ⟨p1.dropLast, dirOnly, true, false, false⟩
      else if p1.length > 1 ∧ p1[0]? = some '*' ∧ p1[1]? = some '.' then
        some ⟨p1, dirOnly, false, true, false⟩
      else
        some ⟨p1, dirOnly, false, false, true⟩

/-- Model of `strchr(pattern, '.')`-based suffix extraction used by the suffix-match
branch of `should_ignore_item`: the pattern from its first `'.'` on, or the
pattern minus its first character when it holds no `'.'`. -/
def suffixToMatch (p : List Char) : List Char :=
  match p.dropWhile (fun c => c != '.') with
  | [] => p.drop 1
  | l => l

/-- Model of `strcmp(name + (len - suffixLen), suffix) == 0` with the length guard. -/
def listEndsWith (l suffix : List Char) : Bool :=
  suffix.length ≤ l.length && (l.drop (l.length - suffix.length) == suffix)

/-- One iteration of the rule loop of `should_ignore_item`: `true` iff this
rule makes the function return `true` at this iteration. -/
def ruleFires (r : IgnoreRule) (path name : List Char) (isDir : Bool) : Bool :=
  if r.is_dir_only && !isDir then false
  else
    let primary :=
      if r.is_wildcard_suffix_match then
        listEndsWith name (suffixToMatch r.pattern)
      else if r.is_wildcard_prefix_match then
        r.pattern.isPrefixOf path && (r.pattern.getLast? == some pathSep)
      else if r.is_exact_name_match then
        if r.pattern.contains pathSep then
          (path == r.pattern) || (isDir && ((path ++ [pathSep]) == r.pattern))
        else
          name == r.pattern
      else
        false
    primary || (r.is_dir_only && name == r.pattern)

/-- Model of `should_ignore_item` from `ignore.c`: returns `true` at the first rule
that matches, `false` after scanning all rules. -/
def should_ignore_item (path name : List Char) (isDir : Bool)
    (rules : List IgnoreRule) : Bool :=
  rules.any (fun r => ruleFires r path name isDir)

/-! #### The specification's ignore semantics (for comparison with the code) -/

/-- Pattern taxonomy of spec §4.1. -/
inductive SpecPatKind where
  | basenameK | pathK | prefixK | suffixK
deriving DecidableEq

/-- An ignore rule as described by the spec (with a negation flag). -/
structure SpecIgnoreRule where
  pattern : List Char
  kind : SpecPatKind
  dirOnly : Bool
  negation : Bool
deriving DecidableEq

/-- Modelled from the spec §4.1 (pattern classification): strip `'!'` into the
negation flag, strip a trailing separator into `directory_only`, then classify
as PREFIX / PATH / SUFFIX / BASENAME. -/
def spec_parse_ignore_line (line : List Char) : Option SpecIgnoreRule :=
  let l := trimLine line
  match l with
  | [] => none
  | c :: _ =>
    if c = '#' then none
    else
      let negation : Bool := l.head? = some '!'
      let l1 := if negation then l.drop 1 else l
      let dirOnly : Bool := l1.getLast? = some pathSep
      let l2 := if dirOnly then l1.dropLast else l1
      if l2.contains pathSep then
        if l2.getLast? = some '*' then some ⟨l2.dropLast, .prefixK, dirOnly, negation⟩
        else some ⟨l2, .pathK, dirOnly, negation⟩
      else if l2.head? = some '*' then some ⟨l2.drop 1, .suffixK, dirOnly, negation⟩
      else some ⟨l2, .basenameK, dirOnly, negation⟩

/-- Modelled from the spec §4.1 (matching): whether one spec rule matches the
item. -/
def spec_rule_matches (r : SpecIgnoreRule) (path name : List Char)
    (isDir : Bool) : Bool :=
  if r.dirOnly && !isDir then false
  else
    match r.kind with
    | .basenameK => name == r.pattern
    | .pathK => path == r.pattern
    | .prefixK => r.pattern.isPrefixOf path
    | .suffixK => listEndsWith name r.pattern

/-- Modelled from the spec §4.1 (scan): last-match-wins fold, starting from
`ignored = false`; each matching rule sets `ignored` to `!negation`. -/
def spec_should_ignore (path name : List Char) (isDir : Bool)
    (rules : List SpecIgnoreRule) : Bool :=
  rules.foldl
    (fun ignored r => if spec_rule_matches r path name isDir then !r.negation else ignored)
    false

/-- The rule lines of spec §8 scenario 5. -/
def c1RuleLines : List (List Char) := ["*.log".data, "!ignored.log".data]

/-- C1: on the rule file `*.log` followed by `!ignored.log`, the code ignores
`ignored.log` (the first matching rule returns `true`; the `'!'` line is
parsed as the literal basename pattern `"!ignored.log"`), while the claimed
last-match-wins semantics with negation re-includes it. -/
theorem C1_negation_unsupported :
    should_ignore_item ("ignored.log".data) ("ignored.log".data) false
        (c1RuleLines.filterMap parse_ignore_pattern_line) = true
    ∧ spec_should_ignore ("ignored.log".data) ("ignored.log".data) false
        (c1RuleLines.filterMap spec_parse_ignore_line) = false := by
  constructor <;> decide

/-! ### The in-memory tree (`datatypes.h`)

A `DNode` is a `DirContextTreeNode`.  File nodes carry the metadata fields
`content_offset_in_data_section` / `content_size` and, in place of the
`disk_path` pointer, the byte content of the file on disk (what reading the
file at `disk_path` would yield).  Directory nodes carry their ordered
children; the C struct's size/offset fields of a directory stay zeroed. -/

inductive NType where
  | file | directory
deriving DecidableEq

inductive DNode where
  | file (relPath : String) (ts : Nat) (contentOffset : Nat) (contentSize : Nat)
      (disk : List Nat) : DNode
  | dir (relPath : String) (ts : Nat) (children : List DNode) : DNode

/-- Relative path of a node. -/
def DNode.relPath : DNode → String
  | .file p _ _ _ _ => p
  | .dir p _ _ => p

/-- Node type tag. -/
def DNode.ntype : DNode → NType
  | .file .. => .file
  | .dir .. => .directory

/-- Last-modified timestamp. -/
def DNode.ts : DNode → Nat
  | .file _ t _ _ _ => t
  | .dir _ t _ => t

/-- Model of `content_offset_in_data_section` (zero-initialised for directories). -/
def DNode.contentOffset : DNode → Nat
  | .file _ _ o _ _ => o
  | .dir .. => 0

/-- Model of `content_size` (zero-initialised for directories). -/
def DNode.contentSize : DNode → Nat
  | .file _ _ _ s _ => s
  | .dir .. => 0

/-- Bytes of the file on disk (empty for directories). -/
def DNode.disk : DNode → List Nat
  | .file _ _ _ _ d => d
  | .dir .. => []

/-- Children list (empty for files, matching the zero-initialised C node). -/
def DNode.childrenOf : DNode → List DNode
  | .file .. => []
  | .dir _ _ cs => cs

theorem DNode.sizeOf_lt_of_mem_childrenOf {c n : DNode}
    (h : c ∈ n.childrenOf) : sizeOf c < sizeOf n := by
  cases n with
  | file p t o s d => simp [DNode.childrenOf] at h
  | dir p t cs =>
    simp [DNode.childrenOf] at h
    have := List.sizeOf_lt_of_mem h
    simp
    omega

/-! ### `diff.c` — the structural differ -/

inductive ChangeType where
  | added | removed | modified
deriving DecidableEq

/-- Model of `DiffEntry` from `diff.h`: change type, node type and relative path. -/
structure DiffEntry where
  ctype : ChangeType
  ntype : NType
  relPath : String
deriving DecidableEq

/-- Model of `add_change_to_report`: the entry records the node's type and path. -/
def mkEntry (t : ChangeType) (n : DNode) : DiffEntry :=
  ⟨t, n.ntype, n.relPath⟩

/-- Model of `find_child_node` from `diff.c`: linear search among a directory's
children for a matching `relative_path` (always `none` on a file node). -/
def find_child_node (parent : DNode) (relPath : String) : Option DNode :=
  match parent with
  | .dir _ _ cs => cs.find? (fun c => c.relPath == relPath)
  | .file .. => none

/-- The modification test of `compare_nodes_recursive`: type change, or for
files a change of `content_size` or `last_modified_timestamp`. -/
def modCond (oldChild newChild : DNode) : Bool :=
  if newChild.ntype ≠ oldChild.ntype then true
  else if newChild.ntype = .file then
    newChild.contentSize ≠ oldChild.contentSize || newChild.ts ≠ oldChild.ts
  else false

/-- Model of `compare_nodes_recursive` from `diff.c`, returning the ordered list of
entries it appends to the report.  Pass 1 walks the new directory's children:
unmatched children are `added`; matched children contribute a `modified` entry
when `modCond` holds and, when both sides are directories, the recursive
comparison.  Pass 2 walks the old children and reports unmatched ones as
`removed`. -/
def compare_nodes_recursive (oldN newN : DNode) : List DiffEntry :=
  (newN.childrenOf.attach.map (fun (cp : {c // c ∈ newN.childrenOf}) =>
    match find_child_node oldN cp.val.relPath with
    | none => [mkEntry .added cp.val]
    | some oc =>
      (if modCond oc cp.val then [mkEntry .modified cp.val] else []) ++
      (if cp.val.ntype = .directory ∧ oc.ntype = .directory then
        compare_nodes_recursive oc cp.val
      else []))).flatten
  ++ oldN.childrenOf.filterMap (fun c =>
      if (find_child_node newN c.relPath).isNone then some (mkEntry .removed c) else none)
termination_by sizeOf newN
decreasing_by
  exact DNode.sizeOf_lt_of_mem_childrenOf cp.property

/-- Model of `compare_trees` with two non-null roots delegates to
`compare_nodes_recursive`; `has_changes` is set iff any entry was added. -/
def compare_trees (oldRoot newRoot : DNode) : List DiffEntry :=
  compare_nodes_recursive oldRoot newRoot

theorem find_child_node_eq_none_of (parent : DNode) (p : String)
    (h : ∀ oc ∈ parent.childrenOf, oc.relPath ≠ p) :
    find_child_node parent p = none := by
  cases parent with
  | file => rfl
  | dir q t cs =>
    rw [find_child_node]
    apply List.find?_eq_none.mpr
    intro x hx
    simp
    exact h x (by simpa [DNode.childrenOf] using hx)

/-- The contribution of one new-side child to the pass-1 entries. -/
def childBlock (oldN c : DNode) : List DiffEntry :=
  match find_child_node oldN c.relPath with
  | none => [mkEntry .added c]
  | some oc =>
    (if modCond oc c then [mkEntry .modified c] else []) ++
    (if c.ntype = .directory ∧ oc.ntype = .directory then
      compare_nodes_recursive oc c
    else [])

theorem compare_nodes_recursive_eq (oldN newN : DNode) :
    compare_nodes_recursive oldN newN =
      (newN.childrenOf.map (childBlock oldN)).flatten
      ++ oldN.childrenOf.filterMap (fun c =>
          if (find_child_node newN c.relPath).isNone then some (mkEntry .removed c)
          else none) := by
  rw [compare_nodes_recursive]
  congr 1
  exact congrArg List.flatten (List.attach_map_val _ (childBlock oldN))

theorem childBlock_subset (oldN newN : DNode) (c : DNode) (hc : c ∈ newN.childrenOf) :
    ∀ e ∈ childBlock oldN c, e ∈ compare_nodes_recursive oldN newN := by
  intro e he
  rw [compare_nodes_recursive_eq]
  apply List.mem_append_left
  rw [List.mem_flatten]
  exact ⟨childBlock oldN c, List.mem_map_of_mem _ hc, he⟩

/-- One step of the differ's recursion: from a directory pair to a matched
type-equal directory child pair (new child in the new directory, old side
found by `find_child_node`). -/
def diffStep (p q : DNode × DNode) : Prop :=
  q.2 ∈ p.2.childrenOf ∧ find_child_node p.1 q.2.relPath = some q.1
    ∧ q.2.ntype = .directory ∧ q.1.ntype = .directory

/-- The directory pairs the recursion of `compare_nodes_recursive` visits,
starting from the root pair. -/
def diffReachable : DNode × DNode → DNode × DNode → Prop :=
  Relation.ReflTransGen diffStep

theorem modCond_iff (oc c : DNode) :
    modCond oc c = true ↔
      (oc.ntype ≠ c.ntype
        ∨ (c.ntype = .file ∧ (c.contentSize ≠ oc.contentSize ∨ c.ts ≠ oc.ts))) := by
  rw [modCond]
  by_cases ht : c.ntype = oc.ntype
  · rw [if_neg (by simp [ht])]
    by_cases hf : c.ntype = .file
    · rw [if_pos hf]
      simp [← ht, hf]
    · rw [if_neg hf]
      simp [← ht, hf]
  · rw [if_pos ht]
    simp
    exact Or.inl (fun h => ht h.symm)

/-- Every `modified` entry of the report originates at a matched child pair
of a directory pair visited by the recursion, and that pair satisfies the
modification condition of the claim. -/
theorem modified_entry_source (oldN newN : DNode) (e : DiffEntry)
    (he : e ∈ compare_nodes_recursive oldN newN) (hm : e.ctype = .modified) :
    ∃ oldD newD c oc, diffReachable (oldN, newN) (oldD, newD)
      ∧ c ∈ newD.childrenOf ∧ find_child_node oldD c.relPath = some oc
      ∧ e = mkEntry .modified c
      ∧ (oc.ntype ≠ c.ntype
          ∨ (c.ntype = .file ∧ (c.contentSize ≠ oc.contentSize ∨ c.ts ≠ oc.ts))) := by
  rw [compare_nodes_recursive_eq] at he
  rcases List.mem_append.mp he with h1 | h2
  · rw [List.mem_flatten] at h1
    obtain ⟨blk, hblk, heblk⟩ := h1
    rw [List.mem_map] at hblk
    obtain ⟨c, hc, rfl⟩ := hblk
    rw [childBlock] at heblk
    cases hfind : find_child_node oldN c.relPath with
    | none =>
      rw [hfind] at heblk
      simp at heblk
      rw [heblk] at hm
      exact absurd hm (by simp [mkEntry])
    | some oc =>
      rw [hfind] at heblk
      rcases List.mem_append.mp heblk with hL | hR
      · by_cases hmod : modCond oc c = true
        · rw [if_pos hmod] at hL
          simp at hL
          exact ⟨oldN, newN, c, oc, Relation.ReflTransGen.refl, hc, hfind, hL,
            (modCond_iff oc c).mp hmod⟩
        · rw [if_neg hmod] at hL
          simp at hL
      · by_cases hdirs : c.ntype = .directory ∧ oc.ntype = .directory
        · rw [if_pos hdirs] at hR
          obtain ⟨oldD, newD, c', oc', hreach, hc', hfind', he', hcond'⟩ :=
            modified_entry_source oc c e hR hm
          exact ⟨oldD, newD, c', oc',
            Relation.ReflTransGen.head ⟨hc, hfind, hdirs.1, hdirs.2⟩ hreach,
            hc', hfind', he', hcond'⟩
        · rw [if_neg hdirs] at hR
          simp at hR
  · rw [List.mem_filterMap] at h2
    obtain ⟨c, _, hsome⟩ := h2
    by_cases hf : (find_child_node newN c.relPath).isNone
    · rw [if_pos hf] at hsome
      have : e = mkEntry .removed c := by
        cases hsome
        rfl
      rw [this] at hm
      exact absurd hm (by simp [mkEntry])
    · rw [if_neg hf] at hsome
      exact absurd hsome (by simp)
termination_by sizeOf newN
decreasing_by exact DNode.sizeOf_lt_of_mem_childrenOf hc

/-- C4: behaviour of the structural diff pass at a pair of directories: an
unmatched new child is reported `added`; an unmatched old child is reported
`removed`; a matched child is reported `modified` when the types differ or
when a file's `content_size` or timestamp changed — and exactly then: every
`modified` entry of the report stems from a matched child pair, at a
directory pair visited by the recursion, that satisfies this condition, and
a matched file pair with equal `content_size` and timestamp contributes
nothing to the report; a type-equal directory pair never satisfies the
modification test by itself, and its recursive comparison is contained in
the report. -/
theorem C4_structural_diff (oldN newN : DNode) :
    (∀ c ∈ newN.childrenOf,
       (∀ oc ∈ oldN.childrenOf, oc.relPath ≠ c.relPath) →
       mkEntry .added c ∈ compare_nodes_recursive oldN newN)
    ∧ (∀ c ∈ oldN.childrenOf,
       (∀ nc ∈ newN.childrenOf, nc.relPath ≠ c.relPath) →
       mkEntry .removed c ∈ compare_nodes_recursive oldN newN)
    ∧ (∀ c oc, c ∈ newN.childrenOf → find_child_node oldN c.relPath = some oc →
       (oc.ntype ≠ c.ntype ∨ (c.ntype = .file ∧ (c.contentSize ≠ oc.contentSize ∨ c.ts ≠ oc.ts))) →
       mkEntry .modified c ∈ compare_nodes_recursive oldN newN)
    ∧ (∀ oc c : DNode, oc.ntype = .directory → c.ntype = .directory → modCond oc c = false)
    ∧ (∀ c oc, c ∈ newN.childrenOf → find_child_node oldN c.relPath = some oc →
       c.ntype = .directory → oc.ntype = .directory →
       ∀ e ∈ compare_nodes_recursive oc c, e ∈ compare_nodes_recursive oldN newN)
    ∧ (∀ e ∈ compare_nodes_recursive oldN newN, e.ctype = .modified →
       ∃ oldD newD c oc, diffReachable (oldN, newN) (oldD, newD)
         ∧ c ∈ newD.childrenOf ∧ find_child_node oldD c.relPath = some oc
         ∧ e = mkEntry .modified c
         ∧ (oc.ntype ≠ c.ntype
             ∨ (c.ntype = .file ∧ (c.contentSize ≠ oc.contentSize ∨ c.ts ≠ oc.ts))))
    ∧ (∀ c oc, c ∈ newN.childrenOf → find_child_node oldN c.relPath = some oc →
       c.ntype = .file → oc.ntype = .file →
       c.contentSize = oc.contentSize → c.ts = oc.ts →
       childBlock oldN c = []) := by
  refine ⟨?_, ?_, ?_, ?_, ?_, ?_, ?_⟩
  · intro c hc hnone
    apply childBlock_subset oldN newN c hc
    rw [childBlock, find_child_node_eq_none_of oldN c.relPath hnone]
    simp
  · intro c hc hnone
    rw [compare_nodes_recursive_eq]
    apply List.mem_append_right
    rw [List.mem_filterMap]
    refine ⟨c, hc, ?_⟩
    rw [find_child_node_eq_none_of newN c.relPath hnone]
    simp
  · intro c oc hc hfind hcond
    apply childBlock_subset oldN newN c hc
    rw [childBlock, hfind]
    have hmod : modCond oc c = true := by
      rcases hcond with h1 | ⟨h2, h3⟩
      · rw [modCond, if_pos (by exact fun h => h1 h.symm)]
      · rw [modCond]
        by_cases ht : c.ntype = oc.ntype
        · rw [if_neg (by simp [ht])]
          rw [if_pos h2]
          rcases h3 with h4 | h4 <;> simp [h4]
        · rw [if_pos ht]
    simp [hmod]
  · intro oc c h1 h2
    rw [modCond, if_neg (by simp [h1, h2]), if_neg (by simp [h2])]
  · intro c oc hc hfind hcd hod e he
    apply childBlock_subset oldN newN c hc
    rw [childBlock, hfind]
    apply List.mem_append_right
    rw [if_pos ⟨hcd, hod⟩]
    exact he
  · intro e he hm
    exact modified_entry_source oldN newN e he hm
  · intro c oc hc hfind hcf hof hsz hts
    have hmod : modCond oc c = false := by
      rw [modCond, if_neg (by simp [hcf, hof]), if_pos hcf]
      simp [hsz, hts]
    rw [childBlock, hfind]
    simp [hmod, hcf]

/-- Witness for `C4_structural_diff` at a concrete tree pair: `b.txt` is new,
`gone.txt` was removed, `a.txt` changed size, and the directory pair `sub`
is recursed into (reporting the nested added file). -/
theorem C4_structural_diff_witness :
    (⟨.added, .file, "b.txt"⟩ : DiffEntry) ∈
      compare_nodes_recursive
        (.dir "" 5 [.file "a.txt" 1 0 2 [104, 105], .dir "sub" 1 []])
        (.dir "" 6 [.file "a.txt" 2 0 3 [104, 105, 33], .dir "sub" 1 [.file "sub/n.txt" 2 0 0 []], .file "b.txt" 2 0 1 [10]]) := by
  have h := (C4_structural_diff
    (.dir "" 5 [.file "a.txt" 1 0 2 [104, 105], .dir "sub" 1 []])
    (.dir "" 6 [.file "a.txt" 2 0 3 [104, 105, 33], .dir "sub" 1 [.file "sub/n.txt" 2 0 0 []], .file "b.txt" 2 0 1 [10]])).1
  have := h (.file "b.txt" 2 0 1 [10]) (by simp [DNode.childrenOf])
    (by
      intro oc hoc
      simp [DNode.childrenOf] at hoc
      rcases hoc with rfl | rfl <;> decide)
  simpa [mkEntry, DNode.ntype, DNode.relPath] using this

/-! ### `main.c` — content verification (false-positive suppression) -/

mutual
/-- Depth of a tree (computable fuel bound for path searches). -/
def DNode.depth : DNode → Nat
  | .file .. => 1
  | .dir _ _ cs => 1 + DNode.depthList cs
/-- Maximum depth over a list of trees. -/
def DNode.depthList : List DNode → Nat
  | [] => 0
  | c :: rest => max (DNode.depth c) (DNode.depthList rest)
end

/-- Model of `find_node_by_path` from `main.c`: exact path match at the current node;
otherwise, for a directory, try each child whose path is a proper prefix of
the searched path (next character a separator, or an exact match) and return
the first successful recursive search.  The fuel argument only bounds the
recursion depth and is always chosen large enough (`sizeOf root`). -/
def find_node_by_path_aux : Nat → DNode → String → Option DNode
  | 0, _, _ => none
  | fuel + 1, root, path =>
    if root.relPath == path then some root
    else
      match root with
      | .file .. => none
      | .dir _ _ cs =>
        cs.findSome? (fun c =>
          let cp := c.relPath.data
          let pd := path.data
          if cp.isPrefixOf pd
              && (pd[cp.length]? == some pathSep || decide (pd.length = cp.length)) then
            find_node_by_path_aux fuel c path
          else none)

/-- Model of `find_node_by_path` with sufficient fuel. -/
def find_node_by_path (root : DNode) (path : String) : Option DNode :=
  find_node_by_path_aux (DNode.depth root) root path

/-- Model of `files_content_identical` from `main.c`: seek the archive to
`dataOffset + contentOffset` and compare `contentSize` bytes of the archive
with the first `contentSize` bytes of the disk file; any short read on either
side yields `false`. -/
def files_content_identical (disk archive : List Nat) (dataOffset : Nat)
    (contentOffset contentSize : Nat) : Bool :=
  decide (contentSize ≤ disk.length)
  && decide (contentSize ≤ (archive.drop (dataOffset + contentOffset)).length)
  && (disk.take contentSize == (archive.drop (dataOffset + contentOffset)).take contentSize)

/-- The per-entry keep decision of `filter_false_positives`: a `modified` file
entry whose old and new nodes are found and have equal `content_size` is
dropped exactly when the byte comparison succeeds; everything else is kept. -/
def keep_entry (oldRoot newRoot : DNode) (archive : List Nat) (oldDataOffset : Nat)
    (e : DiffEntry) : Bool :=
  if e.ctype = .modified ∧ e.ntype = .file then
    match find_node_by_path newRoot e.relPath, find_node_by_path oldRoot e.relPath with
    | some nnode, some onode =>
      if nnode.contentSize = onode.contentSize then
        !(files_content_identical nnode.disk archive oldDataOffset
            onode.contentOffset onode.contentSize)
      else true
    | _, _ => true
  else true

/-- Model of `filter_false_positives` from `main.c`: in-place compaction of the entry
array, keeping exactly the entries for which `keep_entry` holds, in order. -/
def filter_false_positives (entries : List DiffEntry) (oldRoot newRoot : DNode)
    (archive : List Nat) (oldDataOffset : Nat) : List DiffEntry :=
  entries.filter (keep_entry oldRoot newRoot archive oldDataOffset)

/-- C5: added/removed entries are never dropped; a modified file entry whose
nodes resolve is dropped iff the content sizes are equal and the new file's
disk bytes equal the archived bytes at the old node's offset; a size change
always keeps the entry. -/
theorem C5_false_positive_suppression (entries : List DiffEntry)
    (oldRoot newRoot : DNode) (archive : List Nat) (oldDataOffset : Nat) :
    (∀ e ∈ entries, e.ctype = .added ∨ e.ctype = .removed →
       e ∈ filter_false_positives entries oldRoot newRoot archive oldDataOffset)
    ∧ (∀ e ∈ entries, ∀ nnode onode,
       e.ctype = .modified → e.ntype = .file →
       find_node_by_path newRoot e.relPath = some nnode →
       find_node_by_path oldRoot e.relPath = some onode →
       (e ∉ filter_false_positives entries oldRoot newRoot archive oldDataOffset ↔
         (nnode.contentSize = onode.contentSize ∧
          files_content_identical nnode.disk archive oldDataOffset
            onode.contentOffset onode.contentSize = true)))
    ∧ (∀ e ∈ entries, ∀ nnode onode,
       e.ctype = .modified → e.ntype = .file →
       find_node_by_path newRoot e.relPath = some nnode →
       find_node_by_path oldRoot e.relPath = some onode →
       nnode.contentSize ≠ onode.contentSize →
       e ∈ filter_false_positives entries oldRoot newRoot archive oldDataOffset) := by
  refine ⟨?_, ?_, ?_⟩
  · intro e he hct
    rw [filter_false_positives, List.mem_filter]
    refine ⟨he, ?_⟩
    rw [keep_entry, if_neg]
    rintro ⟨h1, h2⟩
    rcases hct with h | h <;> rw [h] at h1 <;> exact absurd h1 (by decide)
  · intro e he nnode onode hm hf hfn hfo
    rw [filter_false_positives]
    have hkeep : keep_entry oldRoot newRoot archive oldDataOffset e
        = (if nnode.contentSize = onode.contentSize then
            !(files_content_identical nnode.disk archive oldDataOffset
                onode.contentOffset onode.contentSize)
          else true) := by
      rw [keep_entry, if_pos ⟨hm, hf⟩, hfn, hfo]
    constructor
    · intro hnot
      have : ¬ (keep_entry oldRoot newRoot archive oldDataOffset e = true) := by
        intro hk
        exact hnot (List.mem_filter.mpr ⟨he, hk⟩)
      rw [hkeep] at this
      by_cases hs : nnode.contentSize = onode.contentSize
      · rw [if_pos hs] at this
        simp at this
        exact ⟨hs, this⟩
      · rw [if_neg hs] at this
        simp at this
    · rintro ⟨hs, hid⟩
      intro hmem
      have hk := (List.mem_filter.mp hmem).2
      rw [hkeep, if_pos hs, hid] at hk
      simp at hk
  · intro e he nnode onode hm hf hfn hfo hs
    rw [filter_false_positives, List.mem_filter]
    refine ⟨he, ?_⟩
    rw [keep_entry, if_pos ⟨hm, hf⟩, hfn, hfo]
    simp [hs]

/-- Witness for `C5_false_positive_suppression`: a touch-only change to
`a.txt` (same two bytes on disk and in the archive) is dropped from the
report. -/
theorem C5_false_positive_suppression_witness :
    (⟨.modified, .file, "a.txt"⟩ : DiffEntry) ∉
      filter_false_positives [⟨.modified, .file, "a.txt"⟩]
        (.dir "" 1 [.file "a.txt" 1 0 2 [104, 105]])
        (.dir "" 2 [.file "a.txt" 2 0 2 [104, 105]])
        [104, 105] 0 :=
  ((C5_false_positive_suppression [⟨.modified, .file, "a.txt"⟩]
      (.dir "" 1 [.file "a.txt" 1 0 2 [104, 105]])
      (.dir "" 2 [.file "a.txt" 2 0 2 [104, 105]])
      [104, 105] 0).2.1
    ⟨.modified, .file, "a.txt"⟩ (by simp)
    (.file "a.txt" 2 0 2 [104, 105]) (.file "a.txt" 1 0 2 [104, 105])
    rfl rfl rfl rfl).mpr ⟨rfl, by decide⟩

/-! ### `dctx_reader.c` — random-access content read (C10) -/

/-- Model of `dctx_read_file_content` from `dctx_reader.c`: fails when the node is not
a file or the caller's buffer is smaller than `content_size`; otherwise seeks
to `data_section_start + content_offset` and reads exactly `content_size`
bytes (a short read fails).  On success the returned list is the content that
was placed in the caller's buffer. -/
def dctx_read_file_content (archive : List Nat) (dataSectionStart : Nat)
    (node : DNode) (bufferSize : Nat) : Option (List Nat) :=
  if node.ntype ≠ .file then none
  else if bufferSize < node.contentSize then none
  else
    let got := (archive.drop (dataSectionStart + node.contentOffset)).take node.contentSize
    if got.length = node.contentSize then some got else none

/-- C10: the random-access read rejects non-file nodes and undersized buffers
before touching the archive, and a successful read returns exactly
`content_size` bytes taken at `data_section_start + content_offset` — in
particular never more than the caller's buffer size. -/
theorem C10_read_file_content_safe (archive : List Nat) (dataSectionStart : Nat)
    (node : DNode) (bufferSize : Nat) :
    (node.ntype ≠ .file →
      dctx_read_file_content archive dataSectionStart node bufferSize = none)
    ∧ (bufferSize < node.contentSize →
      dctx_read_file_content archive dataSectionStart node bufferSize = none)
    ∧ (∀ out, dctx_read_file_content archive dataSectionStart node bufferSize = some out →
      out = (archive.drop (dataSectionStart + node.contentOffset)).take node.contentSize
      ∧ out.length = node.contentSize
      ∧ out.length ≤ bufferSize) := by
  refine ⟨?_, ?_, ?_⟩
  · intro h
    rw [dctx_read_file_content, if_pos h]
  · intro h
    rw [dctx_read_file_content]
    by_cases hf : node.ntype ≠ .file
    · rw [if_pos hf]
    · rw [if_neg hf, if_pos h]
  · intro out hout
    rw [dctx_read_file_content] at hout
    by_cases hf : node.ntype ≠ .file
    · rw [if_pos hf] at hout; exact absurd hout (by simp)
    · rw [if_neg hf] at hout
      by_cases hb : bufferSize < node.contentSize
      · rw [if_pos hb] at hout; exact absurd hout (by simp)
      · rw [if_neg hb] at hout
        by_cases hl : ((archive.drop (dataSectionStart + node.contentOffset)).take
            node.contentSize).length = node.contentSize
        · rw [if_pos hl] at hout
          have hout' : out = (archive.drop (dataSectionStart + node.contentOffset)).take
              node.contentSize := by
            exact (Option.some.injEq _ _ ▸ hout).symm
          refine ⟨hout', ?_, ?_⟩
          · rw [hout']; exact hl
          · rw [hout', hl]; omega
        · rw [if_neg hl] at hout; exact absurd hout (by simp)

/-- Witness for `C10_read_file_content_safe`: a 2-byte undersized buffer is
rejected, and a sufficient buffer receives exactly the archived bytes. -/
theorem C10_read_file_content_safe_witness :
    dctx_read_file_content [1, 2, 3, 4] 1 (.file "a" 0 1 2 []) 1 = none
    ∧ ([3, 4] : List Nat).length ≤ 2 :=
  ⟨(C10_read_file_content_safe [1, 2, 3, 4] 1 (.file "a" 0 1 2 []) 1).2.1 (by decide),
   ((C10_read_file_content_safe [1, 2, 3, 4] 1 (.file "a" 0 1 2 []) 2).2.2
      [3, 4] (by decide)).2.2⟩

/-! ### `writer.c` / `dctx_reader.c` — the binary archive codec

Bytes are `Nat` values `< 256`.  `writer.h` defines the signature macro as the
9-character string literal `"DIRCTXTV1"` while `DIRCONTXT_SIGNATURE_LEN` is 8:
the writer emits only the first 8 bytes of the macro, and the reader compares
the 8 bytes it reads (as a C string) against the full 9-character macro. -/

/-- Bytes of an ASCII string. -/
def strBytes (s : String) : List Nat := s.data.map Char.toNat

/-- ASCII string from bytes (how the reader materialises a path). -/
def strOfBytes (l : List Nat) : String := String.mk (l.map Char.ofNat)

/-- Model of `DIRCONTXT_FILE_SIGNATURE` from `writer.h` — note the trailing `'1'`. -/
def DIRCONTXT_FILE_SIGNATURE : String := "DIRCTXTV1"

/-- Model of `DIRCONTXT_SIGNATURE_LEN` from `writer.h`. -/
def DIRCONTXT_SIGNATURE_LEN : Nat := 8

/-- Model of `MAX_PATH_LEN` (POSIX `PATH_MAX`). -/
def MAX_PATH_LEN : Nat := 4096

/-- Little-endian encoding of `n` in `w` bytes (the value is implicitly
truncated mod `256^w`, matching the C integer casts). -/
def leBytes (w n : Nat) : List Nat :=
  (List.range w).map (fun i => n / 256 ^ i % 256)

/-- Value of a little-endian byte list. -/
def readLEValue (l : List Nat) : Nat :=
  l.foldr (fun b acc => b + 256 * acc) 0

/-- Model of `fread` of a `w`-byte little-endian integer: fails on a short read. -/
def readLE (w : Nat) (bs : List Nat) : Option (Nat × List Nat) :=
  if w ≤ bs.length then some (readLEValue (bs.take w), bs.drop w) else none

/-- Model of `fread` of `k` raw bytes: fails on a short read. -/
def readBytes (k : Nat) (bs : List Nat) : Option (List Nat × List Nat) :=
  if k ≤ bs.length then some (bs.take k, bs.drop k) else none

mutual
/-- Writer pass 1 (`collect_file_data_and_update_nodes_recursive`): fill each
file's `content_offset`/`content_size` from the running data-stream total and
the bytes of the file on disk, in pre-order. -/
def annotate : DNode → Nat → DNode × Nat
  | .file p t _ _ disk, acc => (.file p t acc disk.length disk, acc + disk.length)
  | .dir p t cs, acc =>
    let r := annotateList cs acc
    (.dir p t r.1, r.2)
/-- Pass 1 over a child list, threading the running total. -/
def annotateList : List DNode → Nat → List DNode × Nat
  | [], acc => ([], acc)
  | c :: rest, acc =>
    let r1 := annotate c acc
    let r2 := annotateList rest r1.2
    (r1.1 :: r2.1, r2.2)
end

mutual
/-- Writer pass 2 (`serialize_header_recursive` / `serialize_single_node`):
type byte, `uint16` path length, path bytes, `uint64` timestamp, then the
type-specific body; a directory's children records follow its own record. -/
def headerBytes : DNode → List Nat
  | .file p t off sz _ =>
    let pb := strBytes p
    let pl := pb.length % 65536
    [0] ++ leBytes 2 pl ++ pb.take pl ++ leBytes 8 t ++ leBytes 8 off ++ leBytes 8 sz
  | .dir p t cs =>
    let pb := strBytes p
    let pl := pb.length % 65536
    [1] ++ leBytes 2 pl ++ pb.take pl ++ leBytes 8 t
      ++ leBytes 4 (cs.length % 4294967296) ++ headerBytesList cs
/-- Pass 2 over a child list. -/
def headerBytesList : List DNode → List Nat
  | [] => []
  | c :: rest => headerBytes c ++ headerBytesList rest
end

mutual
/-- The data stream: concatenated file bytes in pre-order. -/
def dataBytes : DNode → List Nat
  | .file _ _ _ _ disk => disk
  | .dir _ _ cs => dataBytesList cs
/-- Data stream over a child list. -/
def dataBytesList : List DNode → List Nat
  | [] => []
  | c :: rest => dataBytes c ++ dataBytesList rest
end

/-- Model of `write_dircontxt_file` from `writer.c`: the bytes of the produced archive:
the first `DIRCONTXT_SIGNATURE_LEN = 8` bytes of the signature macro, the
header stream of the pass-1-annotated tree, then the data stream. -/
def write_dircontxt_file (root : DNode) : List Nat :=
  (strBytes DIRCONTXT_FILE_SIGNATURE).take DIRCONTXT_SIGNATURE_LEN
    ++ headerBytes (annotate root 0).1 ++ dataBytes root

mutual
/-- Model of `read_single_node_metadata` plus `read_children_for_directory_node` from
`dctx_reader.c`, on a byte list: read the type byte (only 0 and 1 are
accepted), the path length (rejected above `MAX_PATH_LEN - 1`), the path, the
timestamp, then the type-specific body; for a directory, read exactly the
declared number of children recursively.  The fuel bounds the recursion and
is always chosen larger than any possible chain (each node consumes at least
eleven bytes of input). -/
def read_node_record : Nat → List Nat → Option (DNode × List Nat)
  | 0, _ => none
  | fuel + 1, bs =>
    match bs with
    | [] => none
    | t :: rest =>
      (readLE 2 rest).bind fun r1 =>
      if r1.1 > MAX_PATH_LEN - 1 then none
      else
        (readBytes r1.1 r1.2).bind fun r2 =>
        (readLE 8 r2.2).bind fun r3 =>
        if t = 0 then
          (readLE 8 r3.2).bind fun r4 =>
          (readLE 8 r4.2).bind fun r5 =>
          some (.file (strOfBytes r2.1) r3.1 r4.1 r5.1 [], r5.2)
        else if t = 1 then
          (readLE 4 r3.2).bind fun r4 =>
          (read_children fuel r4.1 r4.2).bind fun r5 =>
          some (.dir (strOfBytes r2.1) r3.1 r5.1, r5.2)
        else none
/-- Read `n` consecutive node records (children of a directory). -/
def read_children : Nat → Nat → List Nat → Option (List DNode × List Nat)
  | 0, _, _ => none
  | _ + 1, 0, bs => some ([], bs)
  | fuel + 1, n + 1, bs =>
    (read_node_record fuel bs).bind fun r1 =>
    (read_children fuel n r1.2).bind fun r2 =>
    some (r1.1 :: r2.1, r2.2)
end

/-- Model of `dctx_read_and_parse_header` from `dctx_reader.c`: read the 8-byte
signature, `strcmp` it (as a NUL-terminated C string) against the 9-character
macro, then parse the root record (which must be a directory) and all its
children; on success return the tree and the data-section start offset
(`ftell` after the header). -/
def dctx_read_and_parse_header (bs : List Nat) : Option (DNode × Nat) :=
  match readBytes DIRCONTXT_SIGNATURE_LEN bs with
  | none => none
  | some sig =>
    if sig.1.takeWhile (fun b => b != 0) = strBytes DIRCONTXT_FILE_SIGNATURE then
      match read_node_record (sig.2.length + 1) sig.2 with
      | none => none
      | some root =>
        if root.1.ntype = .directory then
          some (root.1, DIRCONTXT_SIGNATURE_LEN + (sig.2.length - root.2.length))
        else none
    else none

theorem length_takeWhile_le' {α : Type} (p : α → Bool) (l : List α) :
    (l.takeWhile p).length ≤ l.length := by
  induction l with
  | nil => simp
  | cons a l ih =>
    rw [List.takeWhile_cons]
    by_cases h : p a
    · simp [h]; omega
    · simp [h]

/-- The reader rejects every input: the C string held in the 8-byte signature
buffer has at most 8 characters, while the macro string has 9. -/
theorem dctx_reader_rejects_all (bs : List Nat) :
    dctx_read_and_parse_header bs = none := by
  rw [dctx_read_and_parse_header]
  cases hrb : readBytes DIRCONTXT_SIGNATURE_LEN bs with
  | none => rfl
  | some sig =>
    have hlen : sig.1.length ≤ 8 := by
      rw [readBytes] at hrb
      by_cases h : DIRCONTXT_SIGNATURE_LEN ≤ bs.length
      · rw [if_pos h] at hrb
        have : sig.1 = bs.take DIRCONTXT_SIGNATURE_LEN := by
          cases hrb; rfl
        rw [this]
        simp [DIRCONTXT_SIGNATURE_LEN]
      · rw [if_neg h] at hrb; exact absurd hrb (by simp)
    have htw : (sig.1.takeWhile (fun b => b != 0)).length ≤ 8 :=
      le_trans (length_takeWhile_le' _ _) hlen
    have hmac : (strBytes DIRCONTXT_FILE_SIGNATURE).length = 9 := by decide
    have hne : ¬ (sig.1.takeWhile (fun b => b != 0) = strBytes DIRCONTXT_FILE_SIGNATURE) := by
      intro heq
      rw [heq, hmac] at htw
      omega
    simp [hne]

/-- C2: every archive the writer emits starts with the 8 signature bytes
`DIRCTXTV`, and the reader fails on every such archive (so `read` after
`write` never succeeds, let alone round-trips byte-for-byte). -/
theorem C2_write_read_roundtrip_broken (root : DNode) :
    (write_dircontxt_file root).take 8 = strBytes "DIRCTXTV"
    ∧ dctx_read_and_parse_header (write_dircontxt_file root) = none := by
  constructor
  · rw [write_dircontxt_file, List.append_assoc]
    rw [List.take_append_of_le_length (by decide)]
    decide
  · exact dctx_reader_rejects_all (write_dircontxt_file root)

/-- The smallest well-formed archive per the spec: signature `DIRCTXTV`, then
one directory record with empty path, timestamp 0 and zero children. -/
def c7Record : List Nat := [1] ++ leBytes 2 0 ++ leBytes 8 0 ++ leBytes 4 0

/-- The spec-well-formed 23-byte archive. -/
def c7Archive : List Nat := strBytes "DIRCTXTV" ++ c7Record

/-- C7: the record grammar itself accepts the well-formed root record (it
parses to an empty root directory, consuming all bytes), yet
`dctx_read_and_parse_header` fails on the well-formed archive — the signature
comparison against the 9-character macro rejects every 8-byte signature. -/
theorem C7_reader_rejects_wellformed_archive :
    read_node_record (c7Record.length + 1) c7Record = some (.dir "" 0 [], [])
    ∧ dctx_read_and_parse_header c7Archive = none :=
  ⟨rfl, dctx_reader_rejects_all c7Archive⟩

/-! ### `main.c` — the orchestration pipeline (one run of the tool)

The run is modelled as a pure function of the prior on-disk state (the first
line of the manifest, when present, and the bytes of the prior archive, when
present), the configured output mode and the freshly walked tree (whose file
nodes carry their on-disk bytes).  File-system writes are reported in the
result record. -/

/-- Model of `OUTPUT_MODE_*` from `config.h`. -/
inductive OutputMode where
  | both | text_only | binary_only
deriving DecidableEq

/-- Model of `parse_version_from_file` from `version.c`, applied to the manifest's
first line: strip the `[DIRCONTXT_LLM_SNAPSHOT_` lead-in and take the token up
to the first `]` (failure when the lead-in or the `]` is missing). -/
def parse_version_line (line : String) : Option String :=
  let pre := "[DIRCONTXT_LLM_SNAPSHOT_".data
  if pre.isPrefixOf line.data then
    let rest := line.data.drop pre.length
    if rest.contains ']' then some (String.mk (rest.takeWhile (fun c => c != ']')))
    else none
  else none

/-- Observable outcome of one `main` invocation. -/
structure RunResult where
  is_update_mode : Bool
  has_actual_changes : Bool
  new_version : String
  archive_written : List Nat
  diff_emitted : Bool
  manifest_written : Option String
  exit_ok : Bool

/-- One invocation of `main` (steps 2–6 of `main.c`), given the prior
manifest first line, the prior archive bytes, the output mode and the walked
tree.  Update mode requires both prior files to exist and the prior archive
header to parse; the differ plus false-positive filter decide
`has_actual_changes`; the version advances only in update mode with changes;
the new archive is always written; the diff file needs update mode, changes,
a successful read-back of the new archive and a dotted version (otherwise the
diff path is empty); the manifest needs a successful read-back of the new
archive, and failing that the run exits nonzero. -/
def mainRun (priorManifestLine : Option String) (priorArchive : Option (List Nat))
    (mode : OutputMode) (tree : DNode) : RunResult :=
  let update0 := priorManifestLine.isSome && priorArchive.isSome
  let oldVersion :=
    if update0 then
      match priorManifestLine.bind parse_version_line with
      | some v => v
      | none => "V1"
    else "V1"
  let oldRead :=
    if update0 then
      match priorArchive with
      | some bs => dctx_read_and_parse_header bs
      | none => none
    else none
  let isUpdate := update0 && oldRead.isSome
  let report :=
    match oldRead with
    | some old =>
      let entries := compare_trees old.1 tree
      if entries ≠ [] then
        filter_false_positives entries old.1 tree (priorArchive.getD []) old.2
      else entries
    | none => []
  let hasChanges := if isUpdate then report ≠ [] else true
  let newVersion :=
    if isUpdate then
      if hasChanges then calculate_next_version oldVersion else oldVersion
    else "V1"
  let newArchive := write_dircontxt_file tree
  let readBack := dctx_read_and_parse_header newArchive
  let diffEmitted := hasChanges && isUpdate && readBack.isSome
      && newVersion.data.contains '.'
  let manifestWritten :=
    if mode = .binary_only then none
    else match readBack with
      | some _ => some newVersion
      | none => none
  let exitOk :=
    if mode = .binary_only then true
    else readBack.isSome
  ⟨isUpdate, hasChanges, newVersion, newArchive, diffEmitted, manifestWritten, exitOk⟩

/-- C3: no run of the tool ever writes a manifest, enters update mode or
emits a diff file, and every run that is supposed to produce the text
artifact exits with a failure: the reader rejects the writer's own archive
(see `C2`/`C7`), so the read-back step of manifest generation always fails
and the "version token written by the first run" never exists. -/
theorem C3_second_run_never_preserves_token (priorManifestLine : Option String)
    (priorArchive : Option (List Nat)) (mode : OutputMode) (tree : DNode) :
    (mainRun priorManifestLine priorArchive mode tree).manifest_written = none
    ∧ (mainRun priorManifestLine priorArchive mode tree).is_update_mode = false
    ∧ (mainRun priorManifestLine priorArchive mode tree).diff_emitted = false
    ∧ (mode ≠ .binary_only →
       (mainRun priorManifestLine priorArchive mode tree).exit_ok = false) := by
  have hOld : (match priorArchive with
      | some bs => dctx_read_and_parse_header bs
      | none => none) = (none : Option (DNode × Nat)) := by
    cases priorArchive with
    | none => rfl
    | some bs => exact dctx_reader_rejects_all bs
  have hBack := dctx_reader_rejects_all (write_dircontxt_file tree)
  refine ⟨?_, ?_, ?_, ?_⟩
  · rw [mainRun.eq_def]
    simp only [hBack]
    by_cases hm : mode = .binary_only <;> simp [hm]
  · rw [mainRun.eq_def]
    simp only [hOld]
    simp
  · rw [mainRun.eq_def]
    simp only [hOld, hBack]
    simp
  · intro hm
    rw [mainRun.eq_def]
    simp only [hBack]
    simp [hm]

/-- Witness for `C3_second_run_never_preserves_token`: a second run over an
unchanged one-file directory, with the prior manifest line and archive
present, writes no manifest and exits with failure. -/
theorem C3_second_run_never_preserves_token_witness :
    (mainRun (some "[DIRCONTXT_LLM_SNAPSHOT_V1]")
        (some (write_dircontxt_file (.dir "" 1 [.file "a.txt" 1 0 2 [104, 105]])))
        .both (.dir "" 1 [.file "a.txt" 1 0 2 [104, 105]])).manifest_written = none
    ∧ (mainRun (some "[DIRCONTXT_LLM_SNAPSHOT_V1]")
        (some (write_dircontxt_file (.dir "" 1 [.file "a.txt" 1 0 2 [104, 105]])))
        .both (.dir "" 1 [.file "a.txt" 1 0 2 [104, 105]])).exit_ok = false :=
  ⟨(C3_second_run_never_preserves_token _ _ _ _).1,
   (C3_second_run_never_preserves_token _ _ _ _).2.2.2 (by decide)⟩

/-! ### `llm_formatter.c` — binary classification and content blocks (C8) -/

/-- Model of `isprint` on a byte (C locale): `0x20 ≤ b ≤ 0x7E`. -/
def isPrintByte (b : Nat) : Bool := 32 ≤ b && b ≤ 126

/-- Model of `isspace` on a byte (C locale). -/
def isSpaceByte (b : Nat) : Bool := b = 32 || (9 ≤ b && b ≤ 13)

/-- A byte counted as non-printable by `is_likely_binary`. -/
def nonPrintableByte (b : Nat) : Bool := !isPrintByte b && !isSpaceByte b

/-- The fixed binary extension table of `is_likely_binary`. -/
def binary_exts : List (List Char) :=
  [".png".data, ".jpg".data, ".jpeg".data, ".gif".data, ".bmp".data, ".ico".data,
   ".tiff".data, ".mp3".data, ".wav".data, ".flac".data, ".ogg".data, ".mp4".data,
   ".mov".data, ".avi".data, ".mkv".data, ".pdf".data, ".zip".data, ".gz".data,
   ".tar".data, ".rar".data, ".7z".data, ".bz2".data, ".exe".data, ".dll".data,
   ".so".data, ".dylib".data, ".o".data, ".a".data, ".lib".data, ".bin".data,
   ".dat".data, ".iso".data, ".img".data, ".class".data, ".jar".data, ".pyc".data,
   ".sqlite".data, ".db".data]

/-- ASCII lower-casing of one character (`tolower`, as used by
`strcasecmp`). -/
def toLowerChar (c : Char) : Char :=
  if 65 ≤ c.toNat ∧ c.toNat ≤ 90 then Char.ofNat (c.toNat + 32) else c

/-- Model of `strrchr(path, '.')`: the extension including the dot — the path from its
last `'.'` on — or `none` when the path holds no dot. -/
def extOf (path : List Char) : Option (List Char) :=
  if path.contains '.' then
    some ('.' :: (path.reverse.takeWhile (fun c => c != '.')).reverse)
  else none

/-- The extension check of `is_likely_binary`: the extension compares equal,
case-insensitively, to an entry of the fixed table. -/
def extInBinarySet (path : List Char) : Bool :=
  match extOf path with
  | some e => binary_exts.any (fun be => e.map toLowerChar == be)
  | none => false

/-- Model of `is_likely_binary` from `llm_formatter.c` (the stream version currently
compiled): extension check first; then, when a content buffer is supplied and
non-empty, a NUL byte anywhere in the buffer, or strictly more than 20% of
non-printable non-whitespace bytes among the first (at most) 512 bytes.  The
`double` comparison `np / checkLen > 0.2` is modelled exactly by
`5 * np > checkLen` (for `np, checkLen ≤ 512` the two sides of the strict
inequality never fall inside the rounding error of the quotient). -/
def is_likely_binary (buffer : Option (List Nat)) (path : List Char) : Bool :=
  extInBinarySet path
  || (match buffer with
      | none => false
      | some b =>
        if b.isEmpty then false
        else if b.contains 0 then true
        else
          let checkLen := min b.length 512
          let np := ((b.take 512).filter nonPrintableByte).length
          decide (5 * np > checkLen))

/-- What a file's content block holds between its start and end markers. -/
inductive BlockBody where
  | empty
  | readError
  | raw (bytes : List Nat)
  | placeholder (size : Nat)
deriving DecidableEq

/-- The body emitted by `write_file_content_block` for a file node of the
given `content_size`, given the result of reading its bytes back from the
archive: nothing for an empty file, an error line when the read fails, and
otherwise the placeholder line or the raw bytes according to
`is_likely_binary`. -/
def write_file_content_block_body (contentSize : Nat) (path : List Char)
    (readResult : Option (List Nat)) : BlockBody :=
  if contentSize = 0 then .empty
  else
    match readResult with
    | none => .readError
    | some buf =>
      if is_likely_binary (some buf) path then .placeholder contentSize
      else .raw buf

/-- The claim's classification predicate, word for word: extension in the
fixed set, or the first at-most-512 bytes contain a NUL or more than 20%
non-printable, non-whitespace bytes. -/
def claimC8Binary (content : List Nat) (path : List Char) : Bool :=
  extInBinarySet path
  || (content.take 512).contains 0
  || decide (5 * ((content.take 512).filter nonPrintableByte).length
       > (content.take 512).length)

/-- The classification the code actually implements (amended claim): the NUL
scan covers the whole buffer, not only its first 512 bytes; the percentage
check is confined to the first 512; an empty buffer is never
content-classified; and an empty file's block is empty even for a
binary-extension file. -/
def amendedC8Binary (content : List Nat) (path : List Char) : Bool :=
  extInBinarySet path
  || (content ≠ [] && (content.contains 0
       || decide (5 * ((content.take 512).filter nonPrintableByte).length
            > min content.length 512)))

/-- The 513-byte content for the counterexample: 512 `'a'`s then one NUL. -/
def c8Bytes : List Nat := List.replicate 512 97 ++ [0]

set_option maxRecDepth 8192 in
/-- C8 counterexample: a text-extension 513-byte file whose only NUL sits
past the 512-byte window is emitted as a placeholder by the code although
the claim classifies it as non-binary; and an empty `.png` file gets an empty
content block although the claim classifies it as binary. -/
theorem C8_counterexample_nul_past_window :
    write_file_content_block_body 513 ("a.txt".data) (some c8Bytes)
        = .placeholder 513
    ∧ claimC8Binary c8Bytes ("a.txt".data) = false
    ∧ write_file_content_block_body 0 ("e.png".data) (some []) = .empty
    ∧ claimC8Binary [] ("e.png".data) = true := by
  refine ⟨by decide, by decide, by decide, by decide⟩

/-- C8 amended claim: for a non-empty buffer the code's classification equals
the amended predicate (NUL scan over the whole buffer, percentage over the
first 512 bytes); a non-binary classification emits the raw bytes, a binary
one the placeholder; an empty file always gets an empty block. -/
theorem C8_binary_classification_amended :
    (∀ (buf : List Nat) (path : List Char), buf ≠ [] →
      (is_likely_binary (some buf) path = true ↔ amendedC8Binary buf path = true))
    ∧ (∀ (contentSize : Nat) (path : List Char) (buf : List Nat),
        contentSize ≠ 0 → is_likely_binary (some buf) path = false →
        write_file_content_block_body contentSize path (some buf) = .raw buf)
    ∧ (∀ (contentSize : Nat) (path : List Char) (buf : List Nat),
        contentSize ≠ 0 → is_likely_binary (some buf) path = true →
        write_file_content_block_body contentSize path (some buf) = .placeholder contentSize)
    ∧ (∀ (path : List Char) (readResult : Option (List Nat)),
        write_file_content_block_body 0 path readResult = .empty) := by
  refine ⟨?_, ?_, ?_, ?_⟩
  · intro buf path hne
    have hempty : buf.isEmpty = false := by
      cases buf with
      | nil => exact absurd rfl hne
      | cons a l => rfl
    rw [is_likely_binary, amendedC8Binary]
    cases hext : extInBinarySet path
    · cases hcont : buf.contains 0 <;>
        simp [hempty, hcont, hne]
    · simp
  · intro contentSize path buf hs hb
    rw [write_file_content_block_body.eq_def, if_neg hs]
    simp [hb]
  · intro contentSize path buf hs hb
    rw [write_file_content_block_body.eq_def, if_neg hs]
    simp [hb]
  · intro path readResult
    rw [write_file_content_block_body.eq_def, if_pos rfl]

/-- Witness for `C8_binary_classification_amended` at concrete inputs. -/
theorem C8_binary_classification_amended_witness :
    (is_likely_binary (some [0]) ("x".data) = true
      ↔ amendedC8Binary [0] ("x".data) = true)
    ∧ write_file_content_block_body 2 ("x".data) (some [104, 105]) = .raw [104, 105] :=
  ⟨C8_binary_classification_amended.1 [0] ("x".data) (by decide),
   C8_binary_classification_amended.2.1 2 ("x".data) [104, 105] (by decide) (by decide)⟩

/-! ### `llm_formatter.c` — manifest ID assignment (C9) -/

/-- The ID generated for a non-root node at counter value `n`
(`snprintf "%03d"` with a `D`/`F` tag according to the node type). -/
def tagId : NType → Nat → String
  | .file, n => String.mk ('F' :: pad3Chars n)
  | .directory, n => String.mk ('D' :: pad3Chars n)

mutual
/-- Model of `write_manifest_entry_recursive` from `llm_formatter.c`, projected onto
its ID assignment: the list of IDs stored into the nodes in pre-order,
together with the final value of the shared counter.  A directory at indent 0
gets `"ROOT"` without consuming the counter; any other directory consumes one
counter value into a `D` ID; every file consumes one counter value into an
`F` ID; children are processed at `indent + 1`. -/
def write_manifest_ids : Nat → Nat → DNode → List String × Nat
  | _, ctr, .file _ _ _ _ _ => ([String.mk ('F' :: pad3Chars ctr)], ctr + 1)
  | indent, ctr, .dir _ _ cs =>
    if indent = 0 then
      let r := write_manifest_ids_list (indent + 1) ctr cs
      ("ROOT" :: r.1, r.2)
    else
      let r := write_manifest_ids_list (indent + 1) (ctr + 1) cs
      (String.mk ('D' :: pad3Chars ctr) :: r.1, r.2)
/-- ID assignment over a child list, threading the shared counter. -/
def write_manifest_ids_list : Nat → Nat → List DNode → List String × Nat
  | _, ctr, [] => ([], ctr)
  | indent, ctr, t :: ts =>
    let r1 := write_manifest_ids indent ctr t
    let r2 := write_manifest_ids_list indent r1.2 ts
    (r1.1 ++ r2.1, r2.2)
end

mutual
/-- Pre-order list of node types of a tree. -/
def preKinds : DNode → List NType
  | .file _ _ _ _ _ => [.file]
  | .dir _ _ cs => .directory :: preKindsList cs
/-- Pre-order node types over a child list. -/
def preKindsList : List DNode → List NType
  | [] => []
  | t :: ts => preKinds t ++ preKindsList ts
end

theorem range'_split (s m n : Nat) :
    List.range' s (m + n) = List.range' s m ++ List.range' (s + m) n := by
  have h := List.range'_append s m n 1
  rw [Nat.one_mul, Nat.add_comm n m] at h
  exact h.symm

mutual
theorem write_manifest_ids_eq : ∀ (indent ctr : Nat) (t : DNode), indent ≠ 0 →
    write_manifest_ids indent ctr t
      = (List.zipWith tagId (preKinds t) (List.range' ctr (preKinds t).length),
         ctr + (preKinds t).length)
  | indent, ctr, .file p a b c d, _ => by
    rw [write_manifest_ids, preKinds]
    simp [tagId, List.range']
  | indent, ctr, .dir p a cs, h => by
    rw [write_manifest_ids, if_neg h, preKinds]
    have hrec := write_manifest_ids_list_eq (indent + 1) (ctr + 1) cs (by omega)
    rw [hrec]
    have hr : List.range' ctr ((NType.directory :: preKindsList cs)).length
        = ctr :: List.range' (ctr + 1) (preKindsList cs).length := by
      simp [List.range'_succ]
    rw [hr]
    simp [tagId]
    omega
theorem write_manifest_ids_list_eq : ∀ (indent ctr : Nat) (cs : List DNode), indent ≠ 0 →
    write_manifest_ids_list indent ctr cs
      = (List.zipWith tagId (preKindsList cs) (List.range' ctr (preKindsList cs).length),
         ctr + (preKindsList cs).length)
  | _, ctr, [], _ => by
    rw [write_manifest_ids_list, preKindsList]
    simp
  | indent, ctr, t :: ts, h => by
    rw [write_manifest_ids_list, preKindsList]
    have h1 := write_manifest_ids_eq indent ctr t h
    rw [h1]
    have h2 := write_manifest_ids_list_eq indent (ctr + (preKinds t).length) ts h
    rw [h2]
    have hsplit : List.range' ctr ((preKinds t ++ preKindsList ts)).length
        = List.range' ctr (preKinds t).length
          ++ List.range' (ctr + (preKinds t).length) (preKindsList ts).length := by
      rw [List.length_append, range'_split]
    rw [hsplit, List.zipWith_append _ _ _ _ _ (by simp)]
    simp
    omega
end

theorem mem_zipWith_exists {α β γ : Type} (f : α → β → γ) :
    ∀ (l1 : List α) (l2 : List β) (x : γ), x ∈ List.zipWith f l1 l2 →
      ∃ a b, a ∈ l1 ∧ b ∈ l2 ∧ x = f a b := by
  intro l1
  induction l1 with
  | nil => intro l2 x hx; simp at hx
  | cons a l1' ih =>
    intro l2 x hx
    cases l2 with
    | nil => simp at hx
    | cons b l2' =>
      rw [List.zipWith_cons_cons] at hx
      rcases List.mem_cons.mp hx with h | h
      · exact ⟨a, b, by simp, by simp, h⟩
      · obtain ⟨a', b', ha, hb, hx'⟩ := ih l2' x h
        exact ⟨a', b', by simp [ha], by simp [hb], hx'⟩

theorem tagId_counter {k1 k2 : NType} {n1 n2 : Nat}
    (h : tagId k1 n1 = tagId k2 n2) : n1 = n2 := by
  have hd := congrArg (fun s => decDigits (s.data.drop 1)) h
  cases k1 <;> cases k2 <;>
    simpa [tagId, decDigits_pad3] using hd

theorem tagId_ne_ROOT (k : NType) (n : Nat) : tagId k n ≠ "ROOT" := by
  intro h
  have hd := congrArg String.data h
  cases k <;> simp [tagId] at hd

theorem zipWith_tagId_range'_nodup :
    ∀ (ks : List NType) (ctr : Nat),
      (List.zipWith tagId ks (List.range' ctr ks.length)).Nodup := by
  intro ks
  induction ks with
  | nil => intro ctr; simp
  | cons k ks' ih =>
    intro ctr
    have hr : List.range' ctr (k :: ks').length
        = ctr :: List.range' (ctr + 1) ks'.length := by
      simp [List.range'_succ]
    rw [hr, List.zipWith_cons_cons]
    refine List.Nodup.cons ?_ (ih (ctr + 1))
    intro hmem
    obtain ⟨k', n', _, hn, hx⟩ := mem_zipWith_exists tagId ks'
      (List.range' (ctr + 1) ks'.length) (tagId k ctr) hmem
    have : ctr = n' := tagId_counter hx
    rw [List.mem_range'] at hn
    omega

/-- C9: the ID assignment of the manifest formatter, run on a root directory
with the shared counter starting at 1, produces exactly `"ROOT"` followed by
a `D`/`F` tag for every non-root node in pre-order carrying consecutive
counter values `1, 2, …`; the IDs are one per node and pairwise distinct (so
the assignment is a bijection onto its ID set, and any two runs on
structurally identical trees produce this same assignment). -/
theorem C9_manifest_ids (p : String) (tsv : Nat) (cs : List DNode) :
    write_manifest_ids 0 1 (.dir p tsv cs)
      = ("ROOT" :: List.zipWith tagId (preKindsList cs)
           (List.range' 1 (preKindsList cs).length),
         1 + (preKindsList cs).length)
    ∧ (write_manifest_ids 0 1 (.dir p tsv cs)).1.length
        = (preKinds (.dir p tsv cs)).length
    ∧ (write_manifest_ids 0 1 (.dir p tsv cs)).1.Nodup := by
  have heq : write_manifest_ids 0 1 (.dir p tsv cs)
      = ("ROOT" :: List.zipWith tagId (preKindsList cs)
           (List.range' 1 (preKindsList cs).length),
         1 + (preKindsList cs).length) := by
    rw [write_manifest_ids, if_pos rfl]
    rw [write_manifest_ids_list_eq 1 1 cs (by omega)]
  refine ⟨heq, ?_, ?_⟩
  · rw [heq, preKinds]
    simp
  · rw [heq]
    refine List.Nodup.cons ?_ (zipWith_tagId_range'_nodup (preKindsList cs) 1)
    intro hmem
    obtain ⟨k', n', _, _, hx⟩ := mem_zipWith_exists tagId (preKindsList cs)
      (List.range' 1 (preKindsList cs).length) "ROOT" hmem
    exact tagId_ne_ROOT k' n' hx.symm
